import Mathlib

/-!
Shallow embedding of the TileDB query read pipeline, following
`tiledb/sm/query/query.h` and the accompanying specification of the query
execution core.  The header only declares the pipeline routines, so every
operation body is modelled from the specification text; the data structures
(`OverlappingTile`, `OverlappingCellRange`, `OverlappingCoords`,
`DenseCellRange`) follow the definitions in the header.  Domain values are
modelled as `Int`, machine indices as `Nat`.
-/

/-  Rectangles over an integer domain (`Domain` ops, spec section 4.1)    -/

/-- A hyper-rectangle over an integer domain: one `(low, high)` closed
interval per dimension, mirroring the C array layout
`[a[0], a[1], a[2], a[3], …]` where dimension `i` occupies `a[2i], a[2i+1]`. -/
abbrev Rect : Type := List (Int × Int)

/-- A rectangle is valid when every dimension's interval is nonempty. -/
def validRect (r : Rect) : Prop := ∀ q ∈ r, q.1 ≤ q.2

instance (r : Rect) : Decidable (validRect r) := by
  unfold validRect; infer_instance

/-- A point lies inside a rectangle when it has one coordinate per dimension
and every coordinate lies in the corresponding closed interval. -/
def inRect (p : List Int) (r : Rect) : Bool :=
  decide (p.length = r.length) &&
    (p.zip r).all (fun q => decide (q.2.1 ≤ q.1) && decide (q.1 ≤ q.2.2))

/-- Two rectangles intersect when some point lies in both. -/
def intersects (a b : Rect) : Prop :=
  ∃ p : List Int, inRect p a = true ∧ inRect p b = true

/-- Rectangle `a` contains rectangle `b`: in every dimension
`a[2i] ≤ b[2i] ∧ b[2i+1] ≤ a[2i+1]`. -/
def containsRect (a b : Rect) : Prop :=
  List.Forall₂ (fun qa qb => qa.1 ≤ qb.1 ∧ qb.2 ≤ qa.2) a b

/-- Modelled from the spec: `Query::overlap` (declared at `query.h:356`; its
body is not among the sources).  First component: whether the two rectangles
overlap, i.e. in every dimension `a[2i] ≤ b[2i+1] ∧ b[2i] ≤ a[2i+1]`.
Second component (the `a_contains_b` out-parameter): whether `a` fully
contains `b`, i.e. in every dimension `a[2i] ≤ b[2i] ∧ b[2i+1] ≤ a[2i+1]`. -/
def overlap (a b : Rect) : Bool × Bool :=
  ((a.zip b).all (fun q => decide (q.1.1 ≤ q.2.2) && decide (q.2.1 ≤ q.1.2)),
   (a.zip b).all (fun q => decide (q.1.1 ≤ q.2.1) && decide (q.2.2 ≤ q.1.2)))

/-  OverlapPlanner: compute_overlapping_tiles (spec section 4.3)          -/

/-- `OverlappingTile` from `query.h:72`: a fragment index, a tile index in
that fragment, and whether the overlap with the subarray is full or partial.
The lazily populated `attr_tiles_` map is omitted: tiles are loaded on demand
by `read_tiles` and play no role in planning, ordering or range logic. -/
structure OverlappingTile where
  fragment_idx : Nat
  tile_idx : Nat
  full_overlap : Bool
deriving DecidableEq, Repr

/-- Modelled from the spec: the inner loop of `Query::compute_overlapping_tiles`
(declared at `query.h:220`; its body is not among the sources) over the tiles
of one fragment `f`, starting at tile index `t`.  A tile is kept when its MBR
overlaps the subarray `S`; `full_overlap` is set when `S` contains the MBR. -/
def overlappingTilesOfFragment (S : Rect) (f : Nat) : Nat → List Rect → List OverlappingTile
  | _, [] => []
  | t, mbr :: rest =>
    let ov := overlap S mbr
    if ov.1 then
      ⟨f, t, ov.2⟩ :: overlappingTilesOfFragment S f (t + 1) rest
    else
      overlappingTilesOfFragment S f (t + 1) rest

/-- Modelled from the spec: the outer loop of `Query::compute_overlapping_tiles`
over the fragment vector, starting at fragment index `f`.  A fragment is given
by the list of the MBRs of its tiles. -/
def overlappingTilesFrom (S : Rect) : Nat → List (List Rect) → List OverlappingTile
  | _, [] => []
  | f, mbrs :: rest =>
      overlappingTilesOfFragment S f 0 mbrs ++ overlappingTilesFrom S (f + 1) rest

/-- Modelled from the spec: `Query::compute_overlapping_tiles` (declared at
`query.h:220`; its body is not among the sources).  For every fragment `f` and
every tile `t` in `f` whose MBR intersects the subarray `S`, it emits one
`OverlappingTile{f, t, full = MBR ⊆ S}`, by fragment then tile index order. -/
def compute_overlapping_tiles (S : Rect) (frags : List (List Rect)) :
    List OverlappingTile :=
  overlappingTilesFrom S 0 frags

/-- Ordering of overlapping tiles: fragment index ascending, then tile index
ascending within a fragment. -/
def tileBefore (e e' : OverlappingTile) : Prop :=
  e.fragment_idx < e'.fragment_idx ∨
    (e.fragment_idx = e'.fragment_idx ∧ e.tile_idx < e'.tile_idx)

/-  Subarray validation: check_subarray / set_subarray (spec 6.2, 6.3)    -/

/-- The error codes surfaced by the query driver that this development
needs (spec section 6.3). -/
inductive QueryError where
  | invalidSubarray : QueryError
  | invalidAttribute : QueryError
deriving DecidableEq, Repr

/-- Modelled from the spec: `Query::check_subarray` (declared at `query.h:739`;
its body is not among the sources): "Checks if `subarray` falls inside the
array domain", reporting `INVALID_SUBARRAY` (out of domain) otherwise. -/
def check_subarray (domain S : Rect) : Except QueryError Unit :=
  if decide (S.length = domain.length) &&
      (S.zip domain).all (fun q => decide (q.2.1 ≤ q.1.1) && decide (q.1.2 ≤ q.2.2))
  then Except.ok ()
  else Except.error QueryError.invalidSubarray

/-- Modelled from the spec: `Query::set_subarray` (declared at `query.h:609`;
its body is not among the sources): a null subarray selects the full domain,
otherwise the subarray is checked against the domain and stored. -/
def set_subarray (domain : Rect) : Option Rect → Except QueryError Rect
  | none => Except.ok domain
  | some S => (check_subarray domain S).map (fun _ => S)

/-  CoordOrderer: sort_coords and dedup_coords (spec section 4.5)         -/

/-- `OverlappingCoords` from `query.h:139`: the overlapping tile the
coordinates belong to, the coordinate tuple, and the position of the cell
inside the tile. -/
structure OverlappingCoords where
  tile : OverlappingTile
  coords : List Int
  pos : Nat
deriving DecidableEq, Repr

/-- The fragment index of the tile an entry belongs to
(`tile_->fragment_idx_` in the C++ code). -/
def OverlappingCoords.frag (e : OverlappingCoords) : Nat := e.tile.fragment_idx

/-- Strict lexicographic order on coordinate tuples: the array's row-major
cell order over the domain. -/
def coordsLt : List Int → List Int → Bool
  | [], [] => false
  | [], _ :: _ => true
  | _ :: _, [] => false
  | a :: as, b :: bs => decide (a < b) || (decide (a = b) && coordsLt as bs)

/-- Modelled from the spec: the comparator of `Query::sort_coords` (declared
at `query.h:281`; its body is not among the sources): coordinates in the
array cell order, ties broken by fragment index descending (more recent
first), then by position ascending. -/
def coordsBefore (x y : OverlappingCoords) : Bool :=
  coordsLt x.coords y.coords ||
    (decide (x.coords = y.coords) &&
      (decide (y.frag < x.frag) ||
        (decide (y.frag = x.frag) && decide (x.pos ≤ y.pos))))

/-- The sort order as a relation. -/
def ocLe (x y : OverlappingCoords) : Prop := coordsBefore x y = true

instance : DecidableRel ocLe := fun x y => by unfold ocLe; infer_instance

/-- Modelled from the spec: `Query::sort_coords` (declared at `query.h:281`;
its body is not among the sources): sort the coordinate entries by the array
cell order with the recency tie-break. -/
def sort_coords (l : List OverlappingCoords) : List OverlappingCoords :=
  l.insertionSort ocLe

/-- Modelled from the spec: `Query::dedup_coords` (declared at `query.h:293`;
its body is not among the sources): scan the sorted vector; consecutive
entries with equal coordinates are duplicates; keep the one with the largest
fragment index and set the others to null in place (`nullptr` is modelled as
`none`); the vector length is unchanged. -/
def dedup_coords : List OverlappingCoords → List (Option OverlappingCoords)
  | [] => []
  | [e] => [some e]
  | e :: e' :: rest =>
    if e.coords = e'.coords then
      if e.frag < e'.frag then
        none :: dedup_coords (e' :: rest)
      else
        match dedup_coords (e :: rest) with
        | [] => [some e, none]
        | he :: tail => he :: none :: tail
    else
      some e :: dedup_coords (e' :: rest)
  termination_by l => l.length

/-- Reference marking of consecutive duplicates after a given previous entry:
an entry is a tombstone exactly when its coordinates equal those of its
predecessor. -/
def markDups (prev : OverlappingCoords) :
    List OverlappingCoords → List (Option OverlappingCoords)
  | [] => []
  | e :: rest => (if e.coords = prev.coords then none else some e) :: markDups e rest

/-- Reference deduplication: the head of every maximal run of consecutive
equal coordinates survives; all other run members are tombstones. -/
def dedupSpec : List OverlappingCoords → List (Option OverlappingCoords)
  | [] => []
  | e :: rest => some e :: markDups e rest

/-- The surviving (non-tombstone) entries of a deduplicated vector. -/
def liveCoords (l : List (Option OverlappingCoords)) : List OverlappingCoords :=
  l.reduceOption

/-  RangeCoalescer: compute_cell_ranges (spec section 4.6)                -/

/-- `OverlappingCellRange` from `query.h:107`: the tile the cell range
belongs to (`none` denotes an empty/fill range) and the inclusive start and
end cell positions. -/
structure OverlappingCellRange where
  tile : Option OverlappingTile
  start : Nat
  end_ : Nat
deriving DecidableEq, Repr

/-- Modelled from the spec: the scan loop of `Query::compute_cell_ranges`
(declared at `query.h:304`; its body is not among the sources), with an open
range `(tile = t, start = s, end = e)`: tombstones are skipped; the open
range is extended while the next live entry has the same tile and the
position `e + 1`; otherwise the range is closed and a new one opened. -/
def cellRangesLoop (t : OverlappingTile) (s e : Nat) :
    List (Option OverlappingCoords) → List OverlappingCellRange
  | [] => [⟨some t, s, e⟩]
  | none :: rest => cellRangesLoop t s e rest
  | some c :: rest =>
    if c.tile = t ∧ c.pos = e + 1 then
      cellRangesLoop t s c.pos rest
    else
      ⟨some t, s, e⟩ :: cellRangesLoop c.tile c.pos c.pos rest

/-- Modelled from the spec: `Query::compute_cell_ranges` (declared at
`query.h:304`; its body is not among the sources): compute the maximal
ranges of contiguous cell positions of the deduplicated sorted coordinates,
skipping tombstones. -/
def compute_cell_ranges : List (Option OverlappingCoords) → List OverlappingCellRange
  | [] => []
  | none :: rest => compute_cell_ranges rest
  | some c :: rest => cellRangesLoop c.tile c.pos c.pos rest

/-- The cells of a range, in order, as `(tile, position)` pairs. -/
def rangeCells (r : OverlappingCellRange) : List (Option OverlappingTile × Nat) :=
  (List.range' r.start (r.end_ + 1 - r.start)).map (fun p => (r.tile, p))

/-- The `(tile, position)` stream of the live entries of a coordinate vector. -/
def liveCells (l : List (Option OverlappingCoords)) :
    List (Option OverlappingTile × Nat) :=
  (liveCoords l).map (fun c => (some c.tile, c.pos))

/-  DenseMerger: compute_dense_cell_ranges (spec section 4.7)             -/

/-- A fragment's dense cell range iterator for one output tile (spec 4.7 and
`dense_cell_range_iter.h`): the sequence of `(start, end)` ranges covered by
the fragment's non-empty domain on the tile's linearized position space, in
the array cell order. -/
abbrev FragRanges : Type := List (Nat × Nat)

/-- `DenseCellRange` from `query.h:167`: a fragment index (`-1` stands for no
fragment, i.e. a fill range), the tile coordinates and the inclusive start
and end positions of the range. -/
structure DenseCellRange where
  fragment_idx : Int
  tile_coords : List Int
  start : Nat
  end_ : Nat
deriving DecidableEq, Repr

/-- Well-formed iterator ranges: each range is nonempty, and ranges are
strictly increasing and pairwise disjoint, as an iterator in cell order
yields them. -/
def SortedRanges (l : FragRanges) : Prop :=
  List.Pairwise (fun r r2 => r.2 < r2.1) l ∧ ∀ r ∈ l, r.1 ≤ r.2

instance (l : FragRanges) : Decidable (SortedRanges l) := by
  unfold SortedRanges; infer_instance

/-- The current range of a fragment iterator at cursor `c`: ranges that end
before the cursor are exhausted and have been advanced past. -/
def curRange (c : Nat) (l : FragRanges) : Option (Nat × Nat) :=
  (l.dropWhile (fun r => decide (r.2 < c))).head?

/-- The fragments whose current range contains the cursor (or begins at it),
with their current ranges, fragment indices ascending from `f0`. -/
def coveringAt (c : Nat) : Nat → List FragRanges → List (Nat × (Nat × Nat))
  | _, [] => []
  | f, l :: ls =>
    match curRange c l with
    | some r =>
      if r.1 ≤ c then (f, r) :: coveringAt c (f + 1) ls
      else coveringAt c (f + 1) ls
    | none => coveringAt c (f + 1) ls

/-- Modelled from the spec: the recency selection of the dense merge (spec
4.7): among the iterators covering the cursor, the one with the largest
fragment index wins. -/
def selectWinner : List (Nat × (Nat × Nat)) → Option (Nat × (Nat × Nat))
  | [] => none
  | x :: xs =>
    match selectWinner xs with
    | none => some x
    | some y => if x.1 ≤ y.1 then some y else some x

/-- The starts, strictly after the cursor, of the current fragment ranges. -/
def startsAfter (c : Nat) : List FragRanges → List Nat
  | [] => []
  | l :: ls =>
    match curRange c l with
    | some r =>
      if c < r.1 then r.1 :: startsAfter c ls else startsAfter c ls
    | none => startsAfter c ls

/-- The next position after the cursor at which some fragment range begins,
defaulting to `d` when none does. -/
def nextStart (c d : Nat) (its : List FragRanges) : Nat :=
  (startsAfter c its).foldr min d

/-- The end of the range emitted at cursor `c` on the interval `[c, c + n]`:
the winner's range end, cut at the next competing range start and at the
interval end; for a fill range, the cut is the cell before the next covered
cell.  The outer `max` states that the cursor never moves backwards (the cuts
are provably at or after the cursor). -/
def emitEnd (its : List FragRanges) (c n : Nat) : Nat :=
  match selectWinner (coveringAt c 0 its) with
  | some w => max c (min (min w.2.2 (nextStart c (c + n + 1) its - 1)) (c + n))
  | none => max c (min (nextStart c (c + n + 1) its - 1) (c + n))

/-- The fragment the range emitted at cursor `c` is attributed to: the winner
covering `c`, or `-1` (fill) when no fragment covers `c`. -/
def emitFrag (its : List FragRanges) (c : Nat) : Int :=
  match selectWinner (coveringAt c 0 its) with
  | some w => (w.1 : Int)
  | none => -1

/-- Modelled from the spec: the merge loop of
`Query::compute_dense_cell_ranges` (declared at `query.h:761`; its body is
not among the sources) for one output tile with tile coordinates `tc`, on the
cursor interval `[c, c + n]`: at each step, among the iterators whose current
range contains the cursor, the one with the largest fragment index is
selected and a `DenseCellRange` is emitted from the cursor to the cut of its
range end with the next competing start; when no iterator covers the cursor a
fill range (`fragment_idx = -1`) up to the cell before the next covered cell
is emitted; the cursor then advances past the emitted range and exhausted
ranges are dropped. -/
def mergeLoop (its : List FragRanges) (tc : List Int) : Nat → Nat → List DenseCellRange
  | c, n =>
    if emitEnd its c n < c + n then
      ⟨emitFrag its c, tc, c, emitEnd its c n⟩ ::
        mergeLoop its tc (emitEnd its c n + 1) (c + n - emitEnd its c n - 1)
    else
      [⟨emitFrag its c, tc, c, emitEnd its c n⟩]
  termination_by _ n => n
  decreasing_by
    have hge : c ≤ emitEnd its c n := by
      unfold emitEnd
      cases selectWinner (coveringAt c 0 its) <;> exact Nat.le_max_left _ _
    omega

/-- Modelled from the spec: `Query::compute_dense_cell_ranges` for one output
tile, on the positions `[start, end]` of `subarray ∩ T`. -/
def compute_dense_cell_ranges (its : List FragRanges) (tc : List Int)
    (start endd : Nat) : List DenseCellRange :=
  if start ≤ endd then mergeLoop its tc start (endd - start) else []

/-- The cell positions of a dense cell range, in order. -/
def denseRangeCells (r : DenseCellRange) : List Nat :=
  List.range' r.start (r.end_ + 1 - r.start)

/-- Fragment `f` covers position `p` when one of its iterator ranges
contains `p`. -/
def fragCovers (its : List FragRanges) (f p : Nat) : Bool :=
  (its.getD f []).any (fun r => decide (r.1 ≤ p) && decide (p ≤ r.2))

/-  Copier and driver: overflow and buffer handling (spec 4.8, 4.9, 7)    -/

/-- An attribute's copy parameters for the overflow model: the fixed cell
size in bytes and the capacity of its output buffer. -/
structure AttrCopy where
  cell_size : Nat
  capacity : Nat
deriving DecidableEq, Repr

/-- Modelled from the spec: the greedy range copy of `Query::copy_cells`
(declared at `query.h:316`; its body is not among the sources) for one
attribute with cell size `cs`: ranges (given by their cell counts, in layout
order) are copied while the next whole range fits in the remaining capacity;
the result is the attribute's last good range index — the number of fully
copied ranges. -/
def lastGood (cs : Nat) : Nat → List Nat → Nat
  | _, [] => 0
  | cap, r :: rest =>
      if cs * r ≤ cap then 1 + lastGood cs (cap - cs * r) rest else 0

/-- An attribute's buffer overflows when it cannot fit all its ranges. -/
def attrOverflow (a : AttrCopy) (ranges : List Nat) : Bool :=
  decide (lastGood a.cell_size a.capacity ranges < ranges.length)

/-- Modelled from the spec: the common truncation index across attributes
(spec section 7): the minimum of the per-attribute last good range indices. -/
def commonLastGood (attrs : List AttrCopy) (ranges : List Nat) : Nat :=
  attrs.foldr (fun a m => min (lastGood a.cell_size a.capacity ranges) m)
    ranges.length

/-- The number of cells attribute `a` finally emits: its own greedily copied
ranges, truncated to the common last good range index. -/
def cellsEmitted (attrs : List AttrCopy) (a : AttrCopy) (ranges : List Nat) : Nat :=
  ((ranges.take (lastGood a.cell_size a.capacity ranges)).take
      (commonLastGood attrs ranges)).sum

/-- `QueryStatus` (from `query_status.h`): the terminal read statuses this
model needs. -/
inductive ReadStatus where
  | completed : ReadStatus
  | incomplete : ReadStatus
deriving DecidableEq, Repr

/-- Modelled from the spec: the terminal status of `read()` (spec 4.9):
`INCOMPLETE` when some attribute's buffer overflowed, else `COMPLETED`. -/
def readStatus (attrs : List AttrCopy) (ranges : List Nat) : ReadStatus :=
  if attrs.any (fun a => attrOverflow a ranges) then ReadStatus.incomplete
  else ReadStatus.completed

/-- Modelled from the spec: the name-based `Query::overflow` (declared at
`query.h:520`; its body is not among the sources), whose contract is
"Status (error is attribute is not involved in the query)": look the name up
among the attributes involved in the query and return that attribute's
overflow flag, or an error `Status` when the name is not involved. -/
def overflowByName (attributes : List String) (flags : List Bool)
    (attribute_name : String) : Except QueryError Bool :=
  match attributes, flags with
  | [], _ => Except.error QueryError.invalidAttribute
  | a :: arest, fl =>
    if a = attribute_name then Except.ok (fl.headD false)
    else overflowByName arest fl.tail attribute_name

/-- Modelled from the spec: `Query::zero_out_buffer_sizes` (declared at
`query.h:846`; its body is not among the sources): sets every input buffer
size to zero. -/
def zero_out_buffer_sizes (buffer_sizes : List Nat) : List Nat :=
  buffer_sizes.map (fun _ => 0)

/-- Modelled from the spec: `Query::zero_out_buffers` (declared at
`query.h:849`; its body is not among the sources): memsets every set buffer
to zero, keeping its allocated length.  A buffer is its list of bytes. -/
def zero_out_buffers (buffers : List (List Nat)) : List (List Nat) :=
  buffers.map (fun b => b.map (fun _ => 0))

/-- A read copies the result bytes `data` into the front of a buffer,
leaving the rest of the allocation as it was. -/
def writeResult (buf data : List Nat) : List Nat :=
  data.take buf.length ++ buf.drop data.length

/-- The useful size reported for the buffer after the copy. -/
def usefulSize (buf data : List Nat) : Nat :=
  min data.length buf.length

/-- Modelled from the spec: the read path prepares each output buffer by
zeroing it (`zero_out_buffers`, used only in read queries) and then copies
the results into its front. -/
def readIntoBuffer (buf data : List Nat) : List Nat :=
  writeResult (buf.map (fun _ => 0)) data

theorem inRect_nil_nil : inRect [] [] = true := by decide

theorem inRect_cons (x : Int) (p : List Int) (q : Int × Int) (r : Rect) :
    inRect (x :: p) (q :: r) = true ↔
      (q.1 ≤ x ∧ x ≤ q.2 ∧ inRect p r = true) := by
  simp only [inRect, List.zip_cons_cons, List.all_cons, List.length_cons,
    Bool.and_eq_true, decide_eq_true_eq]
  constructor
  · rintro ⟨hl, ⟨h1, h2⟩, h3⟩
    exact ⟨h1, h2, by omega, h3⟩
  · rintro ⟨h1, h2, hl, h3⟩
    exact ⟨by omega, ⟨h1, h2⟩, h3⟩

/-- The overlap test is exactly non-emptiness of the intersection. -/
theorem overlap_fst_iff :
    ∀ (a b : Rect), a.length = b.length → validRect a → validRect b →
      ((overlap a b).1 = true ↔ intersects a b)
  | [], [], _, _, _ => by
      constructor
      · intro _; exact ⟨[], inRect_nil_nil, inRect_nil_nil⟩
      · intro _; decide
  | [], q :: r, h, _, _ => by simp at h
  | q :: r, [], h, _, _ => by simp at h
  | qa :: as, qb :: bs, h, hva, hvb => by
      have hlen : as.length = bs.length := by
        simpa using h
      have hva' : validRect as := fun q hq => hva q (List.mem_cons_of_mem _ hq)
      have hvb' : validRect bs := fun q hq => hvb q (List.mem_cons_of_mem _ hq)
      have ih := overlap_fst_iff as bs hlen hva' hvb'
      constructor
      · intro hov
        simp only [overlap, List.zip_cons_cons, List.all_cons, Bool.and_eq_true,
          decide_eq_true_eq] at hov
        obtain ⟨⟨h1, h2⟩, hrest⟩ := hov
        have hrest' : (overlap as bs).1 = true := by
          simp only [overlap]; exact hrest
        obtain ⟨p, hpa, hpb⟩ := ih.mp hrest'
        refine ⟨max qa.1 qb.1 :: p, ?_, ?_⟩
        · rw [inRect_cons]
          have e2 : max qa.1 qb.1 ≤ qa.2 := by
            have := hva qa (List.mem_cons_self _ _)
            exact max_le this h2
          exact ⟨le_max_left _ _, e2, hpa⟩
        · rw [inRect_cons]
          have e2 : max qa.1 qb.1 ≤ qb.2 := by
            have := hvb qb (List.mem_cons_self _ _)
            exact max_le h1 this
          exact ⟨le_max_right _ _, e2, hpb⟩
      · rintro ⟨p, hpa, hpb⟩
        match p with
        | [] => simp [inRect] at hpa
        | x :: p' =>
          rw [inRect_cons] at hpa hpb
          obtain ⟨ha1, ha2, ha3⟩ := hpa
          obtain ⟨hb1, hb2, hb3⟩ := hpb
          have hrest : (overlap as bs).1 = true := ih.mpr ⟨p', ha3, hb3⟩
          simp only [overlap, List.zip_cons_cons, List.all_cons, Bool.and_eq_true,
            decide_eq_true_eq] at *
          exact ⟨⟨le_trans ha1 hb2, le_trans hb1 ha2⟩, hrest⟩

/-- The containment test is exactly the per-dimension containment formula. -/
theorem overlap_snd_iff :
    ∀ (a b : Rect), a.length = b.length →
      ((overlap a b).2 = true ↔ containsRect a b)
  | [], [], _ => by
      constructor
      · intro _; exact List.Forall₂.nil
      · intro _; decide
  | [], q :: r, h => by simp at h
  | q :: r, [], h => by simp at h
  | qa :: as, qb :: bs, h => by
      have hlen : as.length = bs.length := by simpa using h
      have ih := overlap_snd_iff as bs hlen
      simp only [overlap, List.zip_cons_cons, List.all_cons, Bool.and_eq_true,
        decide_eq_true_eq] at *
      constructor
      · rintro ⟨⟨h1, h2⟩, hrest⟩
        exact List.Forall₂.cons ⟨h1, h2⟩ (ih.mp hrest)
      · intro hf
        rcases hf with _ | ⟨⟨h1, h2⟩, hrest⟩
        exact ⟨⟨h1, h2⟩, ih.mpr hrest⟩

/-- C5: `overlap(a, b, dim_num, a_contains_b)` returns `true` exactly when the
intersection of `a` and `b` is non-empty, and sets `a_contains_b` exactly when
every dimension `i` satisfies `a[2i] ≤ b[2i] ∧ b[2i+1] ≤ a[2i+1]`. -/
theorem overlap_correct (a b : Rect) (hlen : a.length = b.length)
    (hva : validRect a) (hvb : validRect b) :
    ((overlap a b).1 = true ↔ intersects a b)
    ∧ ((overlap a b).2 = true ↔ containsRect a b) :=
  ⟨overlap_fst_iff a b hlen hva hvb, overlap_snd_iff a b hlen⟩

theorem overlap_correct_witness :
    ([((0 : Int), 5), (2, 9)] : Rect).length = ([((3 : Int), 7), (0, 4)] : Rect).length
    ∧ validRect [((0 : Int), 5), (2, 9)]
    ∧ validRect [((3 : Int), 7), (0, 4)]
    ∧ (((overlap [((0 : Int), 5), (2, 9)] [((3 : Int), 7), (0, 4)]).1 = true ↔
          intersects [((0 : Int), 5), (2, 9)] [((3 : Int), 7), (0, 4)])
        ∧ ((overlap [((0 : Int), 5), (2, 9)] [((3 : Int), 7), (0, 4)]).2 = true ↔
          containsRect [((0 : Int), 5), (2, 9)] [((3 : Int), 7), (0, 4)])) :=
  ⟨rfl, by decide, by decide,
    overlap_correct [((0 : Int), 5), (2, 9)] [((3 : Int), 7), (0, 4)] rfl
      (by decide) (by decide)⟩

theorem mem_overlappingTilesOfFragment (S : Rect) (f : Nat) (e : OverlappingTile) :
    ∀ (t : Nat) (mbrs : List Rect),
      e ∈ overlappingTilesOfFragment S f t mbrs ↔
        (e.fragment_idx = f ∧ ∃ i, ∃ hi : i < mbrs.length,
          e.tile_idx = t + i ∧ (overlap S (mbrs.get ⟨i, hi⟩)).1 = true ∧
            e.full_overlap = (overlap S (mbrs.get ⟨i, hi⟩)).2)
  | t, [] => by simp [overlappingTilesOfFragment]
  | t, mbr :: rest => by
      have ih := mem_overlappingTilesOfFragment S f e (t + 1) rest
      simp only [overlappingTilesOfFragment]
      by_cases hov : (overlap S mbr).1 = true
      · simp only [hov, if_true, List.mem_cons, ih]
        constructor
        · rintro (rfl | ⟨hf, i, hi, hti, h1, h2⟩)
          · exact ⟨rfl, 0, by simp, by simp, hov, rfl⟩
          · exact ⟨hf, i + 1, by simpa using hi, by omega, h1, h2⟩
        · rintro ⟨hf, i, hi, hti, h1, h2⟩
          match i with
          | 0 =>
            left
            cases e
            simp only at hf hti h2 ⊢
            simp only [List.get] at h1 h2
            subst hf
            subst h2
            simp [hti]
          | i + 1 =>
            right
            exact ⟨hf, i, by simpa using hi, by omega, h1, h2⟩
      · simp only [Bool.not_eq_true] at hov
        simp only [hov, Bool.false_eq_true, if_false, ih]
        constructor
        · rintro ⟨hf, i, hi, hti, h1, h2⟩
          exact ⟨hf, i + 1, by simpa using hi, by omega, h1, h2⟩
        · rintro ⟨hf, i, hi, hti, h1, h2⟩
          match i with
          | 0 =>
            simp only [List.get] at h1
            rw [h1] at hov
            simp at hov
          | i + 1 =>
            exact ⟨hf, i, by simpa using hi, by omega, h1, h2⟩

theorem mem_overlappingTilesFrom (S : Rect) (e : OverlappingTile) :
    ∀ (f0 : Nat) (frags : List (List Rect)),
      e ∈ overlappingTilesFrom S f0 frags ↔
        (∃ j, ∃ hj : j < frags.length, e.fragment_idx = f0 + j ∧
          ∃ i, ∃ hi : i < (frags.get ⟨j, hj⟩).length,
            e.tile_idx = i ∧
            (overlap S ((frags.get ⟨j, hj⟩).get ⟨i, hi⟩)).1 = true ∧
            e.full_overlap = (overlap S ((frags.get ⟨j, hj⟩).get ⟨i, hi⟩)).2)
  | f0, [] => by simp [overlappingTilesFrom]
  | f0, mbrs :: rest => by
      have ih := mem_overlappingTilesFrom S e (f0 + 1) rest
      simp only [overlappingTilesFrom, List.mem_append, ih,
        mem_overlappingTilesOfFragment]
      constructor
      · rintro (⟨hf, i, hi, hti, h1, h2⟩ | ⟨j, hj, hf, i, hi, hti, h1, h2⟩)
        · exact ⟨0, by simp, by omega, i, hi, by omega, h1, h2⟩
        · exact ⟨j + 1, by simpa using hj, by omega, i, hi, hti, h1, h2⟩
      · rintro ⟨j, hj, hf, i, hi, hti, h1, h2⟩
        match j with
        | 0 =>
          exact Or.inl ⟨by omega, i, hi, by omega, h1, h2⟩
        | j + 1 =>
          exact Or.inr ⟨j, by simpa using hj, by omega, i, hi, hti, h1, h2⟩

theorem overlappingTilesOfFragment_fields (S : Rect) (f : Nat) (e : OverlappingTile) :
    ∀ (t : Nat) (mbrs : List Rect),
      e ∈ overlappingTilesOfFragment S f t mbrs →
        e.fragment_idx = f ∧ t ≤ e.tile_idx := by
  intro t mbrs hmem
  rw [mem_overlappingTilesOfFragment] at hmem
  obtain ⟨hf, i, hi, hti, -⟩ := hmem
  exact ⟨hf, by omega⟩

theorem overlappingTilesOfFragment_pairwise (S : Rect) (f : Nat) :
    ∀ (t : Nat) (mbrs : List Rect),
      List.Pairwise (fun e e' => e.tile_idx < e'.tile_idx)
        (overlappingTilesOfFragment S f t mbrs)
  | t, [] => by simp [overlappingTilesOfFragment]
  | t, mbr :: rest => by
      have ih := overlappingTilesOfFragment_pairwise S f (t + 1) rest
      simp only [overlappingTilesOfFragment]
      by_cases hov : (overlap S mbr).1 = true
      · simp only [hov, if_true]
        refine List.Pairwise.cons ?_ ih
        intro e' he'
        have := (overlappingTilesOfFragment_fields S f e' (t + 1) rest he').2
        simpa using by omega
      · simp only [Bool.not_eq_true] at hov
        simp only [hov, Bool.false_eq_true, if_false]
        exact ih

theorem overlappingTilesFrom_fragment_ge (S : Rect) (e : OverlappingTile) :
    ∀ (f0 : Nat) (frags : List (List Rect)),
      e ∈ overlappingTilesFrom S f0 frags → f0 ≤ e.fragment_idx := by
  intro f0 frags hmem
  rw [mem_overlappingTilesFrom] at hmem
  obtain ⟨j, hj, hf, -⟩ := hmem
  omega

theorem overlappingTilesFrom_pairwise (S : Rect) :
    ∀ (f0 : Nat) (frags : List (List Rect)),
      List.Pairwise tileBefore (overlappingTilesFrom S f0 frags)
  | f0, [] => by simp [overlappingTilesFrom]
  | f0, mbrs :: rest => by
      have ih := overlappingTilesFrom_pairwise S (f0 + 1) rest
      simp only [overlappingTilesFrom]
      rw [List.pairwise_append]
      refine ⟨?_, ih, ?_⟩
      · have hpw := overlappingTilesOfFragment_pairwise S f0 0 mbrs
        refine hpw.imp_of_mem ?_
        intro e e' he he' hlt
        have hf := (overlappingTilesOfFragment_fields S f0 e 0 mbrs he).1
        have hf' := (overlappingTilesOfFragment_fields S f0 e' 0 mbrs he').1
        exact Or.inr ⟨by omega, hlt⟩
      · intro e he e' he'
        have hf := (overlappingTilesOfFragment_fields S f0 e 0 mbrs he).1
        have hf' := overlappingTilesFrom_fragment_ge S e' (f0 + 1) rest he'
        exact Or.inl (by omega)

/-- C4: `compute_overlapping_tiles` emits one `OverlappingTile{f, t, full}` for
exactly those fragment-tile pairs whose MBR intersects the subarray, with
`full` set if and only if the MBR is contained in the subarray, and the output
is ordered by fragment index ascending then tile index ascending. -/
theorem compute_overlapping_tiles_correct (S : Rect) (frags : List (List Rect))
    (hvS : validRect S)
    (hv : ∀ mbrs ∈ frags, ∀ mbr ∈ mbrs, validRect mbr ∧ mbr.length = S.length) :
    (∀ e : OverlappingTile,
      e ∈ compute_overlapping_tiles S frags ↔
        ∃ hj : e.fragment_idx < frags.length,
          ∃ hi : e.tile_idx < (frags.get ⟨e.fragment_idx, hj⟩).length,
            intersects S ((frags.get ⟨e.fragment_idx, hj⟩).get ⟨e.tile_idx, hi⟩) ∧
            (e.full_overlap = true ↔
              containsRect S ((frags.get ⟨e.fragment_idx, hj⟩).get ⟨e.tile_idx, hi⟩)))
    ∧ List.Pairwise tileBefore (compute_overlapping_tiles S frags) := by
  constructor
  · intro e
    obtain ⟨ef, et, fo⟩ := e
    rw [compute_overlapping_tiles, mem_overlappingTilesFrom]
    dsimp only
    constructor
    · rintro ⟨j, hj, hf, i, hi, hti, h1, h2⟩
      have hfj : ef = j := by omega
      subst hfj
      subst hti
      refine ⟨hj, hi, ?_⟩
      have hmem' : frags.get ⟨_, hj⟩ ∈ frags := List.get_mem _ _ _
      have hmem : (frags.get ⟨_, hj⟩).get ⟨_, hi⟩ ∈ frags.get ⟨_, hj⟩ :=
        List.get_mem _ _ _
      obtain ⟨hvm, hlm⟩ := hv _ hmem' _ hmem
      constructor
      · exact (overlap_fst_iff S _ hlm.symm hvS hvm).mp h1
      · rw [h2]
        exact overlap_snd_iff S _ hlm.symm
    · rintro ⟨hj, hi, hint, hfull⟩
      set mbr := (frags.get ⟨ef, hj⟩).get ⟨et, hi⟩ with hmbr
      have hmem : mbr ∈ frags.get ⟨ef, hj⟩ := by
        rw [hmbr]; exact List.get_mem _ _ _
      have hmem' : frags.get ⟨ef, hj⟩ ∈ frags := List.get_mem _ _ _
      obtain ⟨hvm, hlm⟩ := hv _ hmem' _ hmem
      refine ⟨ef, hj, by omega, et, hi, rfl, ?_, ?_⟩
      · exact (overlap_fst_iff S mbr hlm.symm hvS hvm).mpr hint
      · have hc := overlap_snd_iff S mbr hlm.symm
        cases hb : (overlap S mbr).2
        · cases he : fo
          · rfl
          · exact absurd (hc.mpr (hfull.mp he)) (by simp [hb])
        · exact hfull.mpr (hc.mp hb)
  · exact overlappingTilesFrom_pairwise S 0 frags

theorem compute_overlapping_tiles_correct_witness :
    validRect [((0 : Int), 3)]
    ∧ (∀ mbrs ∈ [[[((0 : Int), 1)], [(5, 6)]], [[(2, 9)]]], ∀ mbr ∈ mbrs,
        validRect mbr ∧ mbr.length = ([((0 : Int), 3)] : Rect).length)
    ∧ ((∀ e : OverlappingTile,
        e ∈ compute_overlapping_tiles [((0 : Int), 3)] [[[(0, 1)], [(5, 6)]], [[(2, 9)]]] ↔
          ∃ hj : e.fragment_idx < ([[[((0 : Int), 1)], [(5, 6)]], [[(2, 9)]]] :
              List (List Rect)).length,
            ∃ hi : e.tile_idx < (([[[((0 : Int), 1)], [(5, 6)]], [[(2, 9)]]] :
                List (List Rect)).get ⟨e.fragment_idx, hj⟩).length,
              intersects [((0 : Int), 3)]
                ((([[[((0 : Int), 1)], [(5, 6)]], [[(2, 9)]]] :
                  List (List Rect)).get ⟨e.fragment_idx, hj⟩).get ⟨e.tile_idx, hi⟩) ∧
              (e.full_overlap = true ↔
                containsRect [((0 : Int), 3)]
                  ((([[[((0 : Int), 1)], [(5, 6)]], [[(2, 9)]]] :
                    List (List Rect)).get ⟨e.fragment_idx, hj⟩).get ⟨e.tile_idx, hi⟩)))
      ∧ List.Pairwise tileBefore
          (compute_overlapping_tiles [((0 : Int), 3)] [[[(0, 1)], [(5, 6)]], [[(2, 9)]]])) :=
  ⟨by decide, by decide,
    compute_overlapping_tiles_correct [((0 : Int), 3)] [[[(0, 1)], [(5, 6)]], [[(2, 9)]]]
      (by decide) (by decide)⟩

/-- If `d` contains `s` and `s` is valid, then the rectangles intersect
(witnessed by the vector of the per-dimension lows of `s`). -/
theorem containsRect_intersects :
    ∀ (d s : Rect), containsRect d s → validRect s → intersects s d
  | [], [], _, _ => ⟨[], inRect_nil_nil, inRect_nil_nil⟩
  | [], q :: s, hcon, _ => by cases hcon
  | q :: d, [], hcon, _ => by cases hcon
  | qd :: d, qs :: s, hcon, hv => by
      cases hcon with
      | cons h hrest =>
        obtain ⟨p, hps, hpd⟩ := containsRect_intersects d s hrest
          (fun x hx => hv x (List.mem_cons_of_mem _ hx))
        have hq := hv qs (List.mem_cons_self _ _)
        refine ⟨qs.1 :: p, ?_, ?_⟩
        · rw [inRect_cons]; exact ⟨le_refl _, hq, hps⟩
        · rw [inRect_cons]; exact ⟨h.1, le_trans hq h.2, hpd⟩

/-- C8: a non-null subarray lying entirely outside the array domain is
rejected with `INVALID_SUBARRAY` by `set_subarray` (via `check_subarray`),
before any read-pipeline component runs. -/
theorem set_subarray_outside_domain (domain S : Rect)
    (hlen : S.length = domain.length) (hvS : validRect S)
    (hout : ¬ intersects S domain) :
    set_subarray domain (some S) = Except.error QueryError.invalidSubarray := by
  have hall : ¬ ((S.zip domain).all
      (fun q => decide (q.2.1 ≤ q.1.1) && decide (q.1.2 ≤ q.2.2)) = true) := by
    intro hall
    apply hout
    apply containsRect_intersects domain S ?_ hvS
    apply (overlap_snd_iff domain S hlen.symm).mp
    simp only [overlap, List.all_eq_true, Bool.and_eq_true, decide_eq_true_eq] at hall ⊢
    intro q hq
    have hq' : q.swap ∈ S.zip domain := by
      rw [← List.zip_swap domain S]
      exact List.mem_map_of_mem _ hq
    have hb := hall _ hq'
    exact ⟨hb.1, hb.2⟩
  simp only [set_subarray, check_subarray]
  rw [if_neg]
  · rfl
  · intro hcond
    simp only [Bool.and_eq_true] at hcond
    exact hall hcond.2

theorem set_subarray_outside_domain_witness :
    ([((10 : Int), 11)] : Rect).length = ([((1 : Int), 4)] : Rect).length
    ∧ validRect [((10 : Int), 11)]
    ∧ ¬ intersects [((10 : Int), 11)] [((1 : Int), 4)]
    ∧ set_subarray [((1 : Int), 4)] (some [((10 : Int), 11)])
        = Except.error QueryError.invalidSubarray := by
  have hout : ¬ intersects [((10 : Int), 11)] [((1 : Int), 4)] := by
    rintro ⟨p, hp1, hp2⟩
    match p with
    | [] => simp [inRect] at hp1
    | x :: p' =>
      rw [inRect_cons] at hp1 hp2
      obtain ⟨h1, -, -⟩ := hp1
      obtain ⟨-, h2, -⟩ := hp2
      omega
  exact ⟨rfl, by decide, hout,
    set_subarray_outside_domain [((1 : Int), 4)] [((10 : Int), 11)] rfl (by decide) hout⟩

theorem coordsLt_irrefl : ∀ a, coordsLt a a = false
  | [] => rfl
  | x :: xs => by
      simp only [coordsLt, coordsLt_irrefl xs]
      simp

theorem coordsLt_trans :
    ∀ a b c, coordsLt a b = true → coordsLt b c = true → coordsLt a c = true
  | [], [], c, hab, _ => by simp [coordsLt] at hab
  | [], b :: bs, [], _, hbc => by simp [coordsLt] at hbc
  | [], b :: bs, c :: cs, _, _ => by simp [coordsLt]
  | a :: as, [], _, hab, _ => by simp [coordsLt] at hab
  | a :: as, b :: bs, [], _, hbc => by simp [coordsLt] at hbc
  | a :: as, b :: bs, c :: cs, hab, hbc => by
      simp only [coordsLt, Bool.or_eq_true, Bool.and_eq_true,
        decide_eq_true_eq] at hab hbc ⊢
      rcases hab with h1 | ⟨h1, h1'⟩ <;> rcases hbc with h2 | ⟨h2, h2'⟩
      · exact Or.inl (by omega)
      · exact Or.inl (by omega)
      · exact Or.inl (by omega)
      · exact Or.inr ⟨by omega, coordsLt_trans as bs cs h1' h2'⟩

theorem coordsLt_trichotomy :
    ∀ a b, coordsLt a b = true ∨ a = b ∨ coordsLt b a = true
  | [], [] => Or.inr (Or.inl rfl)
  | [], b :: bs => Or.inl (by simp [coordsLt])
  | a :: as, [] => Or.inr (Or.inr (by simp [coordsLt]))
  | a :: as, b :: bs => by
      rcases lt_trichotomy a b with h | h | h
      · exact Or.inl (by simp [coordsLt, h])
      · subst h
        rcases coordsLt_trichotomy as bs with h' | h' | h'
        · exact Or.inl (by simp [coordsLt, h'])
        · exact Or.inr (Or.inl (by rw [h']))
        · exact Or.inr (Or.inr (by simp [coordsLt, h']))
      · exact Or.inr (Or.inr (by simp [coordsLt, h]))

theorem ocLe_iff (x y : OverlappingCoords) :
    ocLe x y ↔ (coordsLt x.coords y.coords = true ∨
      (x.coords = y.coords ∧
        (y.frag < x.frag ∨ (y.frag = x.frag ∧ x.pos ≤ y.pos)))) := by
  simp [ocLe, coordsBefore]

theorem ocLe_total (x y : OverlappingCoords) : ocLe x y ∨ ocLe y x := by
  rw [ocLe_iff, ocLe_iff]
  rcases coordsLt_trichotomy x.coords y.coords with h | h | h
  · exact Or.inl (Or.inl h)
  · rcases Nat.lt_trichotomy x.frag y.frag with hf | hf | hf
    · exact Or.inr (Or.inr ⟨h.symm, Or.inl hf⟩)
    · rcases Nat.le_total x.pos y.pos with hp | hp
      · exact Or.inl (Or.inr ⟨h, Or.inr ⟨hf.symm, hp⟩⟩)
      · exact Or.inr (Or.inr ⟨h.symm, Or.inr ⟨hf, hp⟩⟩)
    · exact Or.inl (Or.inr ⟨h, Or.inl hf⟩)
  · exact Or.inr (Or.inl h)

theorem ocLe_trans' (x y z : OverlappingCoords)
    (hxy : ocLe x y) (hyz : ocLe y z) : ocLe x z := by
  rw [ocLe_iff] at hxy hyz ⊢
  rcases hxy with h1 | ⟨h1, h1'⟩ <;> rcases hyz with h2 | ⟨h2, h2'⟩
  · exact Or.inl (coordsLt_trans _ _ _ h1 h2)
  · exact Or.inl (h2 ▸ h1)
  · exact Or.inl (h1 ▸ h2)
  · refine Or.inr ⟨h1.trans h2, ?_⟩
    rcases h1' with hf | ⟨hf, hp⟩ <;> rcases h2' with hg | ⟨hg, hq⟩
    · exact Or.inl (by omega)
    · exact Or.inl (by omega)
    · exact Or.inl (by omega)
    · exact Or.inr ⟨by omega, by omega⟩

/-- Between two entries related both ways around a middle entry, coordinates
that close a cycle force the middle coordinates to agree. -/
theorem ocLe_sandwich (x h y : OverlappingCoords)
    (hxh : ocLe x h) (hhy : ocLe h y) (hcyc : y.coords = x.coords) :
    h.coords = x.coords := by
  rw [ocLe_iff] at hxh hhy
  rcases hxh with h1 | ⟨h1, -⟩
  · rcases hhy with h2 | ⟨h2, -⟩
    · have := coordsLt_trans _ _ _ h1 h2
      rw [hcyc, coordsLt_irrefl] at this
      exact absurd this (by simp)
    · rw [h2, hcyc] at h1
      rw [coordsLt_irrefl] at h1
      exact absurd h1 (by simp)
  · exact h1.symm

theorem dedup_coords_length : ∀ l, (dedup_coords l).length = l.length
  | [] => by simp [dedup_coords]
  | [e] => by simp [dedup_coords]
  | e :: e' :: rest => by
      have ih1 := dedup_coords_length (e' :: rest)
      have ih2 := dedup_coords_length (e :: rest)
      simp only [dedup_coords]
      by_cases h1 : e.coords = e'.coords
      · rw [if_pos h1]
        by_cases h2 : e.frag < e'.frag
        · rw [if_pos h2]
          simp only [List.length_cons, ih1]
        · rw [if_neg h2]
          match hm : dedup_coords (e :: rest) with
          | [] => rw [hm] at ih2; simp at ih2
          | he :: tail =>
            rw [hm] at ih2
            simp only [List.length_cons] at ih2 ⊢
            omega
      · rw [if_neg h1]
        simp only [List.length_cons, ih1]
  termination_by l => l.length

theorem dedup_coords_inplace :
    ∀ (l : List OverlappingCoords) (i : Nat) (x : OverlappingCoords),
      (dedup_coords l)[i]? = some (some x) → l[i]? = some x
  | [], i, x, h => by simp [dedup_coords] at h
  | [e], i, x, h => by
      simp only [dedup_coords] at h
      match i with
      | 0 => simpa using h
      | i + 1 => simp at h
  | e :: e' :: rest, i, x, h => by
      simp only [dedup_coords] at h
      by_cases h1 : e.coords = e'.coords
      · rw [if_pos h1] at h
        by_cases h2 : e.frag < e'.frag
        · rw [if_pos h2] at h
          match i with
          | 0 => simp at h
          | i + 1 =>
            simp only [List.getElem?_cons_succ] at h ⊢
            exact dedup_coords_inplace (e' :: rest) i x h
        · rw [if_neg h2] at h
          match hm : dedup_coords (e :: rest) with
          | [] =>
            rw [hm] at h
            have := dedup_coords_length (e :: rest)
            rw [hm] at this
            simp at this
          | he :: tail =>
            rw [hm] at h
            match i with
            | 0 =>
              simp only [List.getElem?_cons_zero] at h ⊢
              have := dedup_coords_inplace (e :: rest) 0 x (by rw [hm]; simpa using h)
              simpa using this
            | 1 => simp at h
            | i + 2 =>
              simp only [List.getElem?_cons_succ] at h ⊢
              have := dedup_coords_inplace (e :: rest) (i + 1) x (by rw [hm]; simpa using h)
              simpa using this
      · rw [if_neg h1] at h
        match i with
        | 0 => simpa using h
        | i + 1 =>
          simp only [List.getElem?_cons_succ] at h ⊢
          exact dedup_coords_inplace (e' :: rest) i x h
  termination_by l => l.length

theorem markDups_congr (p p' : OverlappingCoords) (hpp : p.coords = p'.coords) :
    ∀ l, markDups p l = markDups p' l
  | [] => rfl
  | e :: rest => by
      simp only [markDups, hpp]

/-- On input whose consecutive equal-coordinate entries have non-increasing
fragment indices (as the sort comparator guarantees), the scan deduplication
agrees with the reference marking: exactly the non-heads of runs die. -/
theorem dedup_coords_eq_dedupSpec :
    ∀ l, List.Chain' (fun a b => a.coords = b.coords → b.frag ≤ a.frag) l →
      dedup_coords l = dedupSpec l
  | [] , _ => by simp [dedup_coords, dedupSpec]
  | [e], _ => by simp [dedup_coords, dedupSpec, markDups]
  | e :: e' :: rest, hchain => by
      rw [List.chain'_cons] at hchain
      obtain ⟨hee', hchain'⟩ := hchain
      simp only [dedup_coords]
      by_cases h1 : e.coords = e'.coords
      · rw [if_pos h1]
        have hfrag : e'.frag ≤ e.frag := hee' h1
        rw [if_neg (by omega)]
        have hch2 : List.Chain' (fun a b => a.coords = b.coords → b.frag ≤ a.frag)
            (e :: rest) := by
          match rest with
          | [] => simp
          | r0 :: rr =>
            rw [List.chain'_cons] at hchain' ⊢
            refine ⟨?_, hchain'.2⟩
            intro hc
            have := hchain'.1 (h1 ▸ hc)
            omega
        have ih := dedup_coords_eq_dedupSpec (e :: rest) hch2
        rw [ih]
        simp only [dedupSpec]
        rw [markDups_congr e e' h1 rest]
        simp only [dedupSpec, markDups]
        rw [if_pos h1.symm]
      · rw [if_neg h1]
        have ih := dedup_coords_eq_dedupSpec (e' :: rest) hchain'
        rw [ih]
        simp only [dedupSpec, markDups]
        rw [if_neg (fun hc => h1 hc.symm)]
  termination_by l => l.length

theorem mem_markDups (e : OverlappingCoords) :
    ∀ (p : OverlappingCoords) (l : List OverlappingCoords),
      some e ∈ markDups p l → e ∈ l
  | p, [], h => by simp [markDups] at h
  | p, x :: t, h => by
      simp only [markDups, List.mem_cons] at h
      rcases h with h | h
      · by_cases hc : x.coords = p.coords
        · rw [if_pos hc] at h; simp at h
        · rw [if_neg hc] at h
          simp only [Option.some.injEq] at h
          subst h
          exact List.mem_cons_self _ _
      · exact List.mem_cons_of_mem _ (mem_markDups e x t h)

theorem markDups_mem_dedupSpec (e p : OverlappingCoords)
    (x : OverlappingCoords) (t : List OverlappingCoords)
    (h : some e ∈ markDups p (x :: t)) : some e ∈ dedupSpec (x :: t) := by
  simp only [markDups, List.mem_cons] at h
  simp only [dedupSpec, List.mem_cons]
  rcases h with h | h
  · by_cases hc : x.coords = p.coords
    · rw [if_pos hc] at h; simp at h
    · rw [if_neg hc] at h
      exact Or.inl h
  · exact Or.inr h

/-- In a sorted vector, no entry surviving `markDups p` can share the
coordinates of `p`: the run of `p` is contiguous, so all of its members after
`p` are marked. -/
theorem markDups_no_run_survivor (e : OverlappingCoords) :
    ∀ (p : OverlappingCoords) (l : List OverlappingCoords),
      List.Pairwise ocLe (p :: l) → some e ∈ markDups p l →
        e.coords = p.coords → False
  | p, [], _, h, _ => by simp [markDups] at h
  | p, x :: t, hs, h, hcyc => by
      simp only [markDups, List.mem_cons] at h
      rcases h with h | h
      · by_cases hc : x.coords = p.coords
        · rw [if_pos hc] at h; simp at h
        · rw [if_neg hc] at h
          simp only [Option.some.injEq] at h
          exact hc (h ▸ hcyc)
      · have hmem : e ∈ t := mem_markDups e x t h
        rw [List.pairwise_cons] at hs
        obtain ⟨hp, hs'⟩ := hs
        have hph : ocLe p x := hp x (List.mem_cons_self _ _)
        rw [List.pairwise_cons] at hs'
        have hxe : ocLe x e := hs'.1 e hmem
        have hxc : x.coords = p.coords := ocLe_sandwich p x e hph hxe hcyc
        exact markDups_no_run_survivor e x t
          (List.pairwise_cons.mpr hs') h (hcyc.trans hxc.symm)

/-- In a sorted vector every entry surviving the reference marking has the
largest fragment index among the entries with its coordinates. -/
theorem dedupSpec_survivor_max :
    ∀ (l : List OverlappingCoords), List.Pairwise ocLe l →
      ∀ e, some e ∈ dedupSpec l → ∀ x ∈ l, x.coords = e.coords → x.frag ≤ e.frag
  | [], _, e, he, x, hx, _ => by simp [dedupSpec] at he
  | e0 :: rest, hs, e, he, x, hx, hcoords => by
      rw [dedupSpec, List.mem_cons] at he
      rw [List.mem_cons] at hx
      rcases he with he | he
      · simp only [Option.some.injEq] at he
        subst he
        rcases hx with hxe | hx
        · rw [hxe]
        · rw [List.pairwise_cons] at hs
          have hrel : ocLe e x := hs.1 x hx
          rw [ocLe_iff] at hrel
          rcases hrel with hlt | ⟨-, hfr⟩
          · rw [hcoords, coordsLt_irrefl] at hlt
            exact absurd hlt (by simp)
          · omega
      · match rest with
        | [] => simp [markDups] at he
        | r0 :: rr =>
          rcases hx with hxe | hx
          · exfalso
            apply markDups_no_run_survivor e e0 (r0 :: rr) hs he
            exact hxe ▸ hcoords.symm
          · rw [List.pairwise_cons] at hs
            exact dedupSpec_survivor_max (r0 :: rr) hs.2 e
              (markDups_mem_dedupSpec e e0 r0 rr he) x hx hcoords

/-- C2: on a sorted vector, `dedup_coords` tombstones exactly the consecutive
equal-coordinate duplicates other than the run head — which, by the sort
order, is the entry with the largest fragment index among the entries with
those coordinates — and it nulls entries in place: the output has the same
length and every surviving entry keeps its original offset. -/
theorem dedup_coords_correct (l : List OverlappingCoords)
    (hs : List.Sorted ocLe l) :
    dedup_coords l = dedupSpec l
    ∧ (dedup_coords l).length = l.length
    ∧ (∀ (i : Nat) (x : OverlappingCoords),
        (dedup_coords l)[i]? = some (some x) → l[i]? = some x)
    ∧ (∀ e, some e ∈ dedup_coords l →
        ∀ x ∈ l, x.coords = e.coords → x.frag ≤ e.frag) := by
  have hchain : List.Chain' (fun a b => a.coords = b.coords → b.frag ≤ a.frag) l := by
    refine List.Chain'.imp ?_ (List.Pairwise.chain' hs)
    intro a b hab hc
    rw [ocLe_iff] at hab
    rcases hab with hlt | ⟨-, hfr⟩
    · rw [hc, coordsLt_irrefl] at hlt
      exact absurd hlt (by simp)
    · omega
  have heq := dedup_coords_eq_dedupSpec l hchain
  refine ⟨heq, dedup_coords_length l, dedup_coords_inplace l, ?_⟩
  intro e he
  rw [heq] at he
  exact dedupSpec_survivor_max l hs e he

theorem dedup_coords_correct_witness :
    List.Sorted ocLe
      [⟨⟨1, 0, false⟩, [1, 2], 5⟩, ⟨⟨0, 0, false⟩, [1, 2], 3⟩,
        ⟨⟨0, 1, false⟩, [2, 2], 0⟩]
    ∧ (dedup_coords
        [⟨⟨1, 0, false⟩, [1, 2], 5⟩, ⟨⟨0, 0, false⟩, [1, 2], 3⟩,
          ⟨⟨0, 1, false⟩, [2, 2], 0⟩]
        = dedupSpec
        [⟨⟨1, 0, false⟩, [1, 2], 5⟩, ⟨⟨0, 0, false⟩, [1, 2], 3⟩,
          ⟨⟨0, 1, false⟩, [2, 2], 0⟩]
      ∧ (dedup_coords
          [⟨⟨1, 0, false⟩, [1, 2], 5⟩, ⟨⟨0, 0, false⟩, [1, 2], 3⟩,
            ⟨⟨0, 1, false⟩, [2, 2], 0⟩]).length
          = ([⟨⟨1, 0, false⟩, [1, 2], 5⟩, ⟨⟨0, 0, false⟩, [1, 2], 3⟩,
            ⟨⟨0, 1, false⟩, [2, 2], 0⟩] : List OverlappingCoords).length
      ∧ (∀ (i : Nat) (x : OverlappingCoords),
          (dedup_coords
            [⟨⟨1, 0, false⟩, [1, 2], 5⟩, ⟨⟨0, 0, false⟩, [1, 2], 3⟩,
              ⟨⟨0, 1, false⟩, [2, 2], 0⟩])[i]? = some (some x) →
          ([⟨⟨1, 0, false⟩, [1, 2], 5⟩, ⟨⟨0, 0, false⟩, [1, 2], 3⟩,
            ⟨⟨0, 1, false⟩, [2, 2], 0⟩] : List OverlappingCoords)[i]? = some x)
      ∧ (∀ e, some e ∈ dedup_coords
            [⟨⟨1, 0, false⟩, [1, 2], 5⟩, ⟨⟨0, 0, false⟩, [1, 2], 3⟩,
              ⟨⟨0, 1, false⟩, [2, 2], 0⟩] →
          ∀ x ∈ ([⟨⟨1, 0, false⟩, [1, 2], 5⟩, ⟨⟨0, 0, false⟩, [1, 2], 3⟩,
              ⟨⟨0, 1, false⟩, [2, 2], 0⟩] : List OverlappingCoords),
            x.coords = e.coords → x.frag ≤ e.frag)) :=
  ⟨by decide,
    dedup_coords_correct
      [⟨⟨1, 0, false⟩, [1, 2], 5⟩, ⟨⟨0, 0, false⟩, [1, 2], 3⟩,
        ⟨⟨0, 1, false⟩, [2, 2], 0⟩] (by decide)⟩

/-- A sorted vector has non-increasing fragment indices along every run of
equal consecutive coordinates. -/
theorem sorted_chain_frag (l : List OverlappingCoords) (hs : List.Sorted ocLe l) :
    List.Chain' (fun a b => a.coords = b.coords → b.frag ≤ a.frag) l := by
  refine List.Chain'.imp ?_ (List.Pairwise.chain' hs)
  intro a b hab hc
  rw [ocLe_iff] at hab
  rcases hab with hlt | ⟨-, hfr⟩
  · rw [hc, coordsLt_irrefl] at hlt
    exact absurd hlt (by simp)
  · omega

theorem markDups_live_sublist :
    ∀ (p : OverlappingCoords) (l : List OverlappingCoords),
      (liveCoords (markDups p l)).Sublist l
  | p, [] => by simp [markDups, liveCoords, List.reduceOption]
  | p, e :: t => by
      simp only [markDups]
      by_cases hc : e.coords = p.coords
      · rw [if_pos hc]
        simp only [liveCoords, List.reduceOption_cons_of_none]
        exact (markDups_live_sublist e t).cons e
      · rw [if_neg hc]
        simp only [liveCoords, List.reduceOption_cons_of_some]
        exact (markDups_live_sublist e t).cons₂ e

theorem liveCoords_none_cons (l : List (Option OverlappingCoords)) :
    liveCoords (none :: l) = liveCoords l := by
  simp [liveCoords, List.reduceOption_cons_of_none]

theorem liveCoords_some_cons (c : OverlappingCoords)
    (l : List (Option OverlappingCoords)) :
    liveCoords (some c :: l) = c :: liveCoords l := by
  simp [liveCoords, List.reduceOption_cons_of_some]

theorem chain_live_markDups :
    ∀ (p : OverlappingCoords) (l : List OverlappingCoords),
      List.Chain' (fun a b => a.coords ≠ b.coords) (p :: liveCoords (markDups p l))
  | p, [] => by simp [markDups, liveCoords, List.reduceOption]
  | p, e :: t => by
      simp only [markDups]
      by_cases hc : e.coords = p.coords
      · rw [if_pos hc, liveCoords_none_cons]
        have ih := chain_live_markDups e t
        cases hlive : liveCoords (markDups e t) with
        | nil => simp
        | cons y ys =>
          rw [hlive] at ih
          rw [List.chain'_cons] at ih ⊢
          exact ⟨fun hpy => ih.1 (hc.trans hpy), ih.2⟩
      · rw [if_neg hc, liveCoords_some_cons]
        rw [List.chain'_cons]
        exact ⟨fun hpe => hc hpe.symm, chain_live_markDups e t⟩

theorem markDups_of_ne :
    ∀ (p : OverlappingCoords) (l : List OverlappingCoords),
      List.Chain' (fun a b => a.coords ≠ b.coords) (p :: l) →
        markDups p l = l.map some
  | p, [], _ => rfl
  | p, e :: t, hch => by
      rw [List.chain'_cons] at hch
      simp only [markDups, List.map_cons]
      rw [if_neg (fun hc => hch.1 hc.symm)]
      rw [markDups_of_ne e t hch.2]

theorem liveCoords_map_some :
    ∀ l : List OverlappingCoords, liveCoords (l.map some) = l
  | [] => rfl
  | e :: t => by
      simp only [List.map_cons, liveCoords, List.reduceOption_cons_of_some]
      rw [show List.reduceOption (t.map some) = liveCoords (t.map some) from rfl,
        liveCoords_map_some t]

theorem liveCoords_dedupSpec_sublist (l : List OverlappingCoords) :
    (liveCoords (dedupSpec l)).Sublist l := by
  match l with
  | [] => simp [dedupSpec, liveCoords, List.reduceOption]
  | x :: t =>
    rw [dedupSpec]
    simp only [liveCoords, List.reduceOption_cons_of_some]
    exact (markDups_live_sublist x t).cons₂ x

theorem liveCoords_dedupSpec_chain (l : List OverlappingCoords) :
    List.Chain' (fun a b => a.coords ≠ b.coords) (liveCoords (dedupSpec l)) := by
  match l with
  | [] => simp [dedupSpec, liveCoords, List.reduceOption]
  | x :: t =>
    rw [dedupSpec]
    simp only [liveCoords, List.reduceOption_cons_of_some]
    exact chain_live_markDups x t

theorem liveCoords_dedupSpec_of_ne (l : List OverlappingCoords)
    (h : List.Chain' (fun a b => a.coords ≠ b.coords) l) :
    liveCoords (dedupSpec l) = l := by
  match l with
  | [] => rfl
  | x :: t =>
    rw [dedupSpec, markDups_of_ne x t h]
    rw [show (some x :: t.map some) = (x :: t).map some from rfl]
    exact liveCoords_map_some _

/-- C7: sorting then deduplicating is idempotent: running the sorted vector's
surviving entries through sort-and-dedup again reproduces them.  Equality is
stated on the surviving entries, since the in-place tombstones are what every
downstream consumer skips. -/
theorem dedup_sort_idempotent (X : List OverlappingCoords) :
    liveCoords (dedup_coords (sort_coords X)) =
      liveCoords (dedup_coords (sort_coords
        (liveCoords (dedup_coords (sort_coords X))))) := by
  haveI : IsTotal OverlappingCoords ocLe := ⟨ocLe_total⟩
  haveI : IsTrans OverlappingCoords ocLe := ⟨ocLe_trans'⟩
  have hsX : List.Sorted ocLe (sort_coords X) := List.sorted_insertionSort ocLe X
  have hXd : dedup_coords (sort_coords X) = dedupSpec (sort_coords X) :=
    dedup_coords_eq_dedupSpec _ (sorted_chain_frag _ hsX)
  rw [hXd]
  have hYsorted : List.Sorted ocLe (liveCoords (dedupSpec (sort_coords X))) :=
    List.Pairwise.sublist (liveCoords_dedupSpec_sublist _) hsX
  rw [show sort_coords (liveCoords (dedupSpec (sort_coords X)))
      = liveCoords (dedupSpec (sort_coords X)) by
    rw [sort_coords]; exact List.Sorted.insertionSort_eq hYsorted]
  rw [dedup_coords_eq_dedupSpec _ (sorted_chain_frag _ hYsorted)]
  exact (liveCoords_dedupSpec_of_ne _ (liveCoords_dedupSpec_chain _)).symm

theorem range'_split (s n m : Nat) :
    List.range' s (n + m) = List.range' s n ++ List.range' (s + n) m := by
  have h := List.range'_append s n m 1
  rw [one_mul, Nat.add_comm m n] at h
  exact h.symm

theorem liveCells_nil : liveCells [] = [] := rfl

theorem liveCells_none_cons (r : List (Option OverlappingCoords)) :
    liveCells (none :: r) = liveCells r := by
  simp [liveCells, liveCoords_none_cons]

theorem liveCells_some_cons (c : OverlappingCoords)
    (r : List (Option OverlappingCoords)) :
    liveCells (some c :: r) = (some c.tile, c.pos) :: liveCells r := by
  simp [liveCells, liveCoords_some_cons]

theorem cellRangesLoop_flatten :
    ∀ (rest : List (Option OverlappingCoords)) (t : OverlappingTile) (s e : Nat),
      s ≤ e →
      ((cellRangesLoop t s e rest).map rangeCells).flatten
        = (List.range' s (e + 1 - s)).map
            (fun p => ((some t : Option OverlappingTile), p)) ++ liveCells rest
  | [], t, s, e, hse => by
      simp [cellRangesLoop, rangeCells, liveCells_nil]
  | none :: rest, t, s, e, hse => by
      rw [cellRangesLoop, liveCells_none_cons]
      exact cellRangesLoop_flatten rest t s e hse
  | some c :: rest, t, s, e, hse => by
      rw [cellRangesLoop, liveCells_some_cons]
      by_cases hext : c.tile = t ∧ c.pos = e + 1
      · rw [if_pos hext]
        rw [cellRangesLoop_flatten rest t s c.pos (by omega)]
        obtain ⟨htile, hpos⟩ := hext
        subst htile
        rw [hpos]
        have hsplit : e + 1 + 1 - s = (e + 1 - s) + 1 := by omega
        rw [hsplit, range'_split s (e + 1 - s) 1]
        have hpt : s + (e + 1 - s) = e + 1 := by omega
        rw [hpt]
        simp [List.range']
      · rw [if_neg hext]
        simp only [List.map_cons, List.flatten_cons]
        rw [cellRangesLoop_flatten rest c.tile c.pos c.pos (le_refl _)]
        have h1 : c.pos + 1 - c.pos = 1 := by omega
        rw [h1]
        simp [rangeCells, List.range']

theorem cellRangesLoop_head :
    ∀ (rest : List (Option OverlappingCoords)) (t : OverlappingTile) (s e : Nat),
      ∃ e2 tail, cellRangesLoop t s e rest = ⟨some t, s, e2⟩ :: tail
  | [], t, s, e => ⟨e, [], rfl⟩
  | none :: rest, t, s, e => by
      rw [cellRangesLoop]
      exact cellRangesLoop_head rest t s e
  | some c :: rest, t, s, e => by
      rw [cellRangesLoop]
      by_cases hext : c.tile = t ∧ c.pos = e + 1
      · rw [if_pos hext]
        exact cellRangesLoop_head rest t s c.pos
      · rw [if_neg hext]
        exact ⟨e, _, rfl⟩

theorem cellRangesLoop_chain :
    ∀ (rest : List (Option OverlappingCoords)) (t : OverlappingTile) (s e : Nat),
      List.Chain' (fun r r2 => ¬(r2.tile = r.tile ∧ r2.start = r.end_ + 1))
        (cellRangesLoop t s e rest)
  | [], t, s, e => by simp [cellRangesLoop]
  | none :: rest, t, s, e => by
      rw [cellRangesLoop]
      exact cellRangesLoop_chain rest t s e
  | some c :: rest, t, s, e => by
      rw [cellRangesLoop]
      by_cases hext : c.tile = t ∧ c.pos = e + 1
      · rw [if_pos hext]
        exact cellRangesLoop_chain rest t s c.pos
      · rw [if_neg hext]
        rw [List.chain'_cons']
        constructor
        · intro b hb
          obtain ⟨e2, tail, heq⟩ := cellRangesLoop_head rest c.tile c.pos c.pos
          rw [heq] at hb
          simp only [List.head?_cons, Option.mem_def, Option.some.injEq] at hb
          subst hb
          simp only [Option.some.injEq]
          intro ⟨h1, h2⟩
          exact hext ⟨h1, h2⟩
        · exact cellRangesLoop_chain rest c.tile c.pos c.pos

theorem cellRangesLoop_bounds :
    ∀ (rest : List (Option OverlappingCoords)) (t : OverlappingTile) (s e : Nat),
      s ≤ e → ∀ r ∈ cellRangesLoop t s e rest, r.start ≤ r.end_ ∧ r.tile ≠ none
  | [], t, s, e, hse, r, hr => by
      simp only [cellRangesLoop, List.mem_singleton] at hr
      subst hr
      exact ⟨hse, by simp⟩
  | none :: rest, t, s, e, hse, r, hr => by
      rw [cellRangesLoop] at hr
      exact cellRangesLoop_bounds rest t s e hse r hr
  | some c :: rest, t, s, e, hse, r, hr => by
      rw [cellRangesLoop] at hr
      by_cases hext : c.tile = t ∧ c.pos = e + 1
      · rw [if_pos hext] at hr
        exact cellRangesLoop_bounds rest t s c.pos (by omega) r hr
      · rw [if_neg hext] at hr
        rcases List.mem_cons.mp hr with hr | hr
        · subst hr
          exact ⟨hse, by simp⟩
        · exact cellRangesLoop_bounds rest c.tile c.pos c.pos (le_refl _) r hr

theorem cellRangesLoop_skip :
    ∀ (rest : List (Option OverlappingCoords)) (t : OverlappingTile) (s e : Nat),
      cellRangesLoop t s e rest = cellRangesLoop t s e ((liveCoords rest).map some)
  | [], t, s, e => rfl
  | none :: rest, t, s, e => by
      rw [cellRangesLoop, liveCoords_none_cons]
      exact cellRangesLoop_skip rest t s e
  | some c :: rest, t, s, e => by
      rw [liveCoords_some_cons, List.map_cons, cellRangesLoop, cellRangesLoop]
      by_cases hext : c.tile = t ∧ c.pos = e + 1
      · rw [if_pos hext, if_pos hext]
        exact cellRangesLoop_skip rest t s c.pos
      · rw [if_neg hext, if_neg hext]
        rw [cellRangesLoop_skip rest c.tile c.pos c.pos]

/-- C3: `compute_cell_ranges` skips tombstones and produces exactly the
maximal contiguous ranges of the live entries, in layout order: flattening
the ranges back to `(tile, position)` pairs reproduces the live entry stream,
no two adjacent output ranges could be merged, every range is well-formed and
attributed to a tile, and tombstones do not affect the output. -/
theorem compute_cell_ranges_correct (l : List (Option OverlappingCoords)) :
    ((compute_cell_ranges l).map rangeCells).flatten = liveCells l
    ∧ List.Chain' (fun r r2 => ¬(r2.tile = r.tile ∧ r2.start = r.end_ + 1))
        (compute_cell_ranges l)
    ∧ (∀ r ∈ compute_cell_ranges l, r.start ≤ r.end_ ∧ r.tile ≠ none)
    ∧ compute_cell_ranges l = compute_cell_ranges ((liveCoords l).map some) := by
  induction l with
  | nil => exact ⟨rfl, by simp [compute_cell_ranges], by simp [compute_cell_ranges], rfl⟩
  | cons hd rest ih =>
    match hd with
    | none =>
      rw [compute_cell_ranges, liveCells_none_cons, liveCoords_none_cons]
      exact ih
    | some c =>
      rw [compute_cell_ranges, liveCells_some_cons, liveCoords_some_cons]
      refine ⟨?_, cellRangesLoop_chain rest c.tile c.pos c.pos, ?_, ?_⟩
      · rw [cellRangesLoop_flatten rest c.tile c.pos c.pos (le_refl _)]
        have h1 : c.pos + 1 - c.pos = 1 := by omega
        rw [h1]
        simp [List.range']
      · exact cellRangesLoop_bounds rest c.tile c.pos c.pos (le_refl _)
      · rw [List.map_cons, compute_cell_ranges]
        exact cellRangesLoop_skip rest c.tile c.pos c.pos

theorem curRange_cursor_le :
    ∀ (c : Nat) (l : FragRanges) (r : Nat × Nat),
      curRange c l = some r → c ≤ r.2
  | c, [], r, h => by simp [curRange] at h
  | c, x :: t, r, h => by
      rw [curRange, List.dropWhile_cons] at h
      by_cases hx : x.2 < c
      · rw [if_pos (by simpa using hx)] at h
        exact curRange_cursor_le c t r (by rw [curRange]; exact h)
      · rw [if_neg (by simpa using hx)] at h
        simp only [List.head?_cons, Option.some.injEq] at h
        subst h
        omega

/-- Under sorted disjoint ranges, some range of the list contains the cursor
exactly when the iterator's current range does. -/
theorem covers_iff_curRange :
    ∀ (l : FragRanges), SortedRanges l → ∀ (c : Nat),
      ((∃ r ∈ l, r.1 ≤ c ∧ c ≤ r.2) ↔ (∃ r, curRange c l = some r ∧ r.1 ≤ c))
  | [], _, c => by simp [curRange]
  | x :: t, hs, c => by
      obtain ⟨hpw, hb⟩ := hs
      rw [List.pairwise_cons] at hpw
      have hst : SortedRanges t := ⟨hpw.2, fun r hr => hb r (List.mem_cons_of_mem _ hr)⟩
      by_cases hx : x.2 < c
      · have hcur : curRange c (x :: t) = curRange c t := by
          rw [curRange, List.dropWhile_cons, if_pos (by simpa using hx), curRange]
        rw [hcur]
        rw [← covers_iff_curRange t hst c]
        constructor
        · rintro ⟨r, hr, h1, h2⟩
          rcases List.mem_cons.mp hr with hr | hr
          · subst hr; omega
          · exact ⟨r, hr, h1, h2⟩
        · rintro ⟨r, hr, h1, h2⟩
          exact ⟨r, List.mem_cons_of_mem _ hr, h1, h2⟩
      · have hcur : curRange c (x :: t) = some x := by
          rw [curRange, List.dropWhile_cons, if_neg (by simpa using hx)]
          rfl
        rw [hcur]
        constructor
        · rintro ⟨r, hr, h1, h2⟩
          rcases List.mem_cons.mp hr with hr | hr
          · exact ⟨x, rfl, hr ▸ h1⟩
          · have := hpw.1 r hr
            omega
        · rintro ⟨r, hr, h1⟩
          simp only [Option.some.injEq] at hr
          exact ⟨x, List.mem_cons_self _ _, hr.symm ▸ h1, by omega⟩

theorem selectWinner_none :
    ∀ (xs : List (Nat × (Nat × Nat))), selectWinner xs = none ↔ xs = []
  | [] => by simp [selectWinner]
  | x :: xs => by
      constructor
      · intro h
        rw [selectWinner] at h
        cases hsel : selectWinner xs with
        | none => rw [hsel] at h; dsimp only at h; exact absurd h (by simp)
        | some y =>
          rw [hsel] at h
          dsimp only at h
          by_cases hle : x.1 ≤ y.1
          · rw [if_pos hle] at h; exact absurd h (by simp)
          · rw [if_neg hle] at h; exact absurd h (by simp)
      · intro h; simp at h

theorem selectWinner_spec :
    ∀ (xs : List (Nat × (Nat × Nat))) (y : Nat × (Nat × Nat)),
      selectWinner xs = some y → y ∈ xs ∧ ∀ x ∈ xs, x.1 ≤ y.1
  | [], y, h => by simp [selectWinner] at h
  | x :: xs, y, h => by
      rw [selectWinner] at h
      cases hsel : selectWinner xs with
      | none =>
        rw [hsel] at h
        dsimp only at h
        simp only [Option.some.injEq] at h
        subst h
        have hnil : xs = [] := (selectWinner_none xs).mp hsel
        subst hnil
        exact ⟨List.mem_cons_self _ _, by simp⟩
      | some w =>
        rw [hsel] at h
        dsimp only at h
        obtain ⟨hwmem, hwmax⟩ := selectWinner_spec xs w hsel
        by_cases hle : x.1 ≤ w.1
        · rw [if_pos hle] at h
          simp only [Option.some.injEq] at h
          subst h
          refine ⟨List.mem_cons_of_mem _ hwmem, ?_⟩
          intro z hz
          rcases List.mem_cons.mp hz with hz | hz
          · subst hz; exact hle
          · exact hwmax z hz
        · rw [if_neg hle] at h
          simp only [Option.some.injEq] at h
          subst h
          refine ⟨List.mem_cons_self _ _, ?_⟩
          intro z hz
          rcases List.mem_cons.mp hz with hz | hz
          · subst hz; exact le_refl _
          · exact le_trans (hwmax z hz) (by omega)

theorem mem_startsAfter :
    ∀ (its : List FragRanges) (c : Nat) (x : Nat), x ∈ startsAfter c its → c < x
  | [], c, x, h => by simp [startsAfter] at h
  | l :: ls, c, x, h => by
      rw [startsAfter] at h
      cases hcur : curRange c l with
      | some r =>
        rw [hcur] at h
        dsimp only at h
        by_cases hlt : c < r.1
        · rw [if_pos hlt] at h
          rcases List.mem_cons.mp h with h | h
          · subst h; exact hlt
          · exact mem_startsAfter ls c x h
        · rw [if_neg hlt] at h
          exact mem_startsAfter ls c x h
      | none =>
        rw [hcur] at h
        dsimp only at h
        exact mem_startsAfter ls c x h

theorem foldr_min_lb (b d : Nat) :
    ∀ (l : List Nat), b ≤ d → (∀ x ∈ l, b ≤ x) → b ≤ l.foldr min d
  | [], hd, _ => hd
  | x :: t, hd, hl => by
      simp only [List.foldr_cons]
      have h1 := hl x (List.mem_cons_self _ _)
      have h2 := foldr_min_lb b d t hd (fun z hz => hl z (List.mem_cons_of_mem _ hz))
      omega

theorem nextStart_gt (its : List FragRanges) (c d : Nat) (hd : c < d) :
    c < nextStart c d its := by
  rw [nextStart]
  have := foldr_min_lb (c + 1) d (startsAfter c its) (by omega)
    (fun x hx => mem_startsAfter its c x hx)
  omega

theorem emitEnd_ge (its : List FragRanges) (c n : Nat) : c ≤ emitEnd its c n := by
  unfold emitEnd
  cases selectWinner (coveringAt c 0 its) <;> exact Nat.le_max_left _ _

theorem emitEnd_le (its : List FragRanges) (c n : Nat) : emitEnd its c n ≤ c + n := by
  unfold emitEnd
  cases selectWinner (coveringAt c 0 its) <;>
    exact max_le (by omega) (min_le_right _ _)

theorem mem_coveringAt :
    ∀ (its : List FragRanges) (c f0 : Nat) (x : Nat × (Nat × Nat)),
      x ∈ coveringAt c f0 its ↔
        ∃ j, ∃ hj : j < its.length, x.1 = f0 + j ∧
          curRange c (its.get ⟨j, hj⟩) = some x.2 ∧ x.2.1 ≤ c
  | [], c, f0, x => by simp [coveringAt]
  | l :: ls, c, f0, x => by
      rw [coveringAt]
      cases hcur : curRange c l with
      | some r =>
        dsimp only
        by_cases hle : r.1 ≤ c
        · rw [if_pos hle]
          rw [List.mem_cons, mem_coveringAt ls c (f0 + 1) x]
          constructor
          · rintro (rfl | ⟨j, hj, hf, hc, hx⟩)
            · exact ⟨0, by simp, by simp, by simpa using hcur, hle⟩
            · exact ⟨j + 1, by simpa using hj, by omega, hc, hx⟩
          · rintro ⟨j, hj, hf, hc, hx⟩
            match j with
            | 0 =>
              left
              simp only [List.get] at hc
              rw [hcur] at hc
              simp only [Option.some.injEq] at hc
              have hx1 : x.1 = f0 := by omega
              obtain ⟨x1, x2⟩ := x
              simp only at hx1 hc ⊢
              rw [hx1, hc]
            | j + 1 =>
              right
              exact ⟨j, by simpa using hj, by omega, hc, hx⟩
        · rw [if_neg hle]
          rw [mem_coveringAt ls c (f0 + 1) x]
          constructor
          · rintro ⟨j, hj, hf, hc, hx⟩
            exact ⟨j + 1, by simpa using hj, by omega, hc, hx⟩
          · rintro ⟨j, hj, hf, hc, hx⟩
            match j with
            | 0 =>
              simp only [List.get] at hc
              rw [hcur] at hc
              simp only [Option.some.injEq] at hc
              rw [hc] at hle
              exact absurd hx hle
            | j + 1 =>
              exact ⟨j, by simpa using hj, by omega, hc, hx⟩
      | none =>
        dsimp only
        rw [mem_coveringAt ls c (f0 + 1) x]
        constructor
        · rintro ⟨j, hj, hf, hc, hx⟩
          exact ⟨j + 1, by simpa using hj, by omega, hc, hx⟩
        · rintro ⟨j, hj, hf, hc, hx⟩
          match j with
          | 0 =>
            simp only [List.get] at hc
            rw [hcur] at hc
            simp at hc
          | j + 1 =>
            exact ⟨j, by simpa using hj, by omega, hc, hx⟩

theorem fragCovers_iff (its : List FragRanges) (f c : Nat)
    (hs : ∀ l ∈ its, SortedRanges l) :
    fragCovers its f c = true ↔
      ∃ hj : f < its.length, ∃ r, curRange c (its.get ⟨f, hj⟩) = some r ∧ r.1 ≤ c := by
  by_cases hj : f < its.length
  · have hget : its.getD f [] = its.get ⟨f, hj⟩ := by
      rw [List.getD_eq_getElem?_getD]
      rw [List.getElem?_eq_getElem hj]
      simp [List.get_eq_getElem]
    rw [fragCovers, hget]
    have hsl : SortedRanges (its.get ⟨f, hj⟩) := hs _ (List.get_mem _ _ _)
    rw [List.any_eq_true]
    constructor
    · rintro ⟨r, hr, hcond⟩
      simp only [Bool.and_eq_true, decide_eq_true_eq] at hcond
      obtain ⟨r2, hcur, hle⟩ := (covers_iff_curRange _ hsl c).mp ⟨r, hr, hcond.1, hcond.2⟩
      exact ⟨hj, r2, hcur, hle⟩
    · rintro ⟨hj2, r, hcur, hle⟩
      obtain ⟨r2, hr2, h1, h2⟩ := (covers_iff_curRange _ hsl c).mpr ⟨r, hcur, hle⟩
      exact ⟨r2, hr2, by simp only [Bool.and_eq_true, decide_eq_true_eq]; exact ⟨h1, h2⟩⟩
  · constructor
    · intro h
      rw [fragCovers, List.getD_eq_default _ _ (by omega)] at h
      simp at h
    · rintro ⟨hj2, -⟩
      exact absurd hj2 hj

/-- At any cursor, the emitted attribution is the maximal covering fragment,
or `-1` exactly when no fragment covers the cursor. -/
theorem emitFrag_spec (its : List FragRanges) (c : Nat)
    (hs : ∀ l ∈ its, SortedRanges l) :
    (emitFrag its c = -1 ∧ ∀ f, fragCovers its f c = false)
    ∨ (∃ f : Nat, emitFrag its c = (f : Int) ∧ fragCovers its f c = true
        ∧ ∀ g, fragCovers its g c = true → g ≤ f) := by
  cases hw : selectWinner (coveringAt c 0 its) with
  | none =>
    left
    have hnil : coveringAt c 0 its = [] := (selectWinner_none _).mp hw
    constructor
    · rw [emitFrag, hw]
    · intro f
      by_contra hcov
      rw [Bool.not_eq_false] at hcov
      obtain ⟨hj, r, hcur, hle⟩ := (fragCovers_iff its f c hs).mp hcov
      have hmem : ((f, r) : Nat × (Nat × Nat)) ∈ coveringAt c 0 its := by
        rw [mem_coveringAt]
        exact ⟨f, hj, by omega, hcur, hle⟩
      rw [hnil] at hmem
      simp at hmem
  | some w =>
    right
    obtain ⟨hwmem, hwmax⟩ := selectWinner_spec _ w hw
    refine ⟨w.1, by rw [emitFrag, hw], ?_, ?_⟩
    · rw [fragCovers_iff its w.1 c hs]
      rw [mem_coveringAt] at hwmem
      obtain ⟨j, hj, hf, hc, hx⟩ := hwmem
      have hjw : j = w.1 := by omega
      subst hjw
      exact ⟨hj, w.2, hc, hx⟩
    · intro g hg
      rw [fragCovers_iff its g c hs] at hg
      obtain ⟨hj, r, hcur, hle⟩ := hg
      have hmem : ((g, r) : Nat × (Nat × Nat)) ∈ coveringAt c 0 its := by
        rw [mem_coveringAt]
        exact ⟨g, hj, by omega, hcur, hle⟩
      exact hwmax _ hmem

theorem mergeLoop_flatten (its : List FragRanges) (tc : List Int) :
    ∀ (n c : Nat),
      ((mergeLoop its tc c n).map denseRangeCells).flatten = List.range' c (n + 1)
  | n, c => by
      rw [mergeLoop]
      by_cases hlt : emitEnd its c n < c + n
      · rw [if_pos hlt]
        have hge : c ≤ emitEnd its c n := emitEnd_ge its c n
        simp only [List.map_cons, List.flatten_cons]
        rw [mergeLoop_flatten its tc (c + n - emitEnd its c n - 1) (emitEnd its c n + 1)]
        simp only [denseRangeCells]
        have hn2 : c + n - emitEnd its c n - 1 + 1 = c + n - emitEnd its c n := by omega
        rw [hn2]
        have hsum : n + 1 = (emitEnd its c n + 1 - c) + (c + n - emitEnd its c n) := by
          omega
        rw [hsum, range'_split]
        have hst : c + (emitEnd its c n + 1 - c) = emitEnd its c n + 1 := by omega
        rw [hst]
      · rw [if_neg hlt]
        have hle := emitEnd_le its c n
        have heq : emitEnd its c n = c + n := by omega
        simp only [List.map_cons, List.map_nil, List.flatten_cons, List.flatten_nil,
          List.append_nil, denseRangeCells, heq]
        congr 1
        omega
  termination_by n _ => n
  decreasing_by omega

theorem mergeLoop_attribution (its : List FragRanges) (tc : List Int)
    (hs : ∀ l ∈ its, SortedRanges l) :
    ∀ (n c : Nat) (r : DenseCellRange), r ∈ mergeLoop its tc c n →
      (r.fragment_idx = -1 ∧ ∀ f, fragCovers its f r.start = false)
      ∨ (∃ f : Nat, r.fragment_idx = (f : Int) ∧ fragCovers its f r.start = true
          ∧ ∀ g, fragCovers its g r.start = true → g ≤ f)
  | n, c, r, hr => by
      rw [mergeLoop] at hr
      by_cases hlt : emitEnd its c n < c + n
      · rw [if_pos hlt] at hr
        rcases List.mem_cons.mp hr with hr | hr
        · subst hr
          simpa using emitFrag_spec its c hs
        · have hge : c ≤ emitEnd its c n := emitEnd_ge its c n
          exact mergeLoop_attribution its tc hs (c + n - emitEnd its c n - 1)
            (emitEnd its c n + 1) r hr
      · rw [if_neg hlt] at hr
        simp only [List.mem_singleton] at hr
        subst hr
        simpa using emitFrag_spec its c hs
  termination_by n _ _ _ => n
  decreasing_by omega

/-- C1: for a dense read, the `DenseCellRange`s produced for an output tile
partition the subarray-restricted portion `[start, end]` of the tile with no
gaps and no overlaps — their cells, concatenated in order, are exactly
`start, …, end` — and every range is attributed to the fragment with the
largest index among those covering its first cell (in particular, when two
fragments both begin covering the cursor cell at the same position the one
with the larger index wins), or to the fill marker `-1` exactly when no
fragment covers it. -/
theorem compute_dense_cell_ranges_correct (its : List FragRanges) (tc : List Int)
    (start endd : Nat) (hs : ∀ l ∈ its, SortedRanges l) (hse : start ≤ endd) :
    ((compute_dense_cell_ranges its tc start endd).map denseRangeCells).flatten
        = List.range' start (endd + 1 - start)
    ∧ ∀ r ∈ compute_dense_cell_ranges its tc start endd,
        (r.fragment_idx = -1 ∧ ∀ f, fragCovers its f r.start = false)
        ∨ (∃ f : Nat, r.fragment_idx = (f : Int) ∧ fragCovers its f r.start = true
            ∧ ∀ g, fragCovers its g r.start = true → g ≤ f) := by
  rw [compute_dense_cell_ranges, if_pos hse]
  constructor
  · rw [mergeLoop_flatten its tc (endd - start) start]
    congr 1
    omega
  · intro r hr
    exact mergeLoop_attribution its tc hs (endd - start) start r hr

theorem compute_dense_cell_ranges_correct_witness :
    (∀ l ∈ [[((0 : Nat), (3 : Nat))], [(2, 5)]], SortedRanges l)
    ∧ (0 : Nat) ≤ 6
    ∧ (((compute_dense_cell_ranges [[(0, 3)], [(2, 5)]] [0] 0 6).map
          denseRangeCells).flatten = List.range' 0 (6 + 1 - 0)
      ∧ ∀ r ∈ compute_dense_cell_ranges [[(0, 3)], [(2, 5)]] [0] 0 6,
          (r.fragment_idx = -1 ∧
            ∀ f, fragCovers [[(0, 3)], [(2, 5)]] f r.start = false)
          ∨ (∃ f : Nat, r.fragment_idx = (f : Int) ∧
              fragCovers [[(0, 3)], [(2, 5)]] f r.start = true
              ∧ ∀ g, fragCovers [[(0, 3)], [(2, 5)]] g r.start = true → g ≤ f)) :=
  ⟨by decide, by decide,
    compute_dense_cell_ranges_correct [[(0, 3)], [(2, 5)]] [0] 0 6
      (by decide) (by decide)⟩

theorem commonLastGood_le :
    ∀ (attrs : List AttrCopy) (ranges : List Nat) (a : AttrCopy), a ∈ attrs →
      commonLastGood attrs ranges ≤ lastGood a.cell_size a.capacity ranges
  | [], ranges, a, ha => by simp at ha
  | b :: rest, ranges, a, ha => by
      rw [commonLastGood]
      simp only [List.foldr_cons]
      rcases List.mem_cons.mp ha with ha | ha
      · subst ha
        exact min_le_left _ _
      · have := commonLastGood_le rest ranges a ha
        rw [commonLastGood] at this
        exact le_trans (min_le_right _ _) this

theorem lastGood_prefix_fits (cs : Nat) :
    ∀ (ranges : List Nat) (cap k : Nat), k ≤ lastGood cs cap ranges →
      cs * (ranges.take k).sum ≤ cap
  | [], cap, k, hk => by
      rw [lastGood] at hk
      have : k = 0 := by omega
      subst this
      simp
  | r :: rest, cap, k, hk => by
      rw [lastGood] at hk
      by_cases hr : cs * r ≤ cap
      · rw [if_pos hr] at hk
        match k with
        | 0 => simp
        | k + 1 =>
          have hk' : k ≤ lastGood cs (cap - cs * r) rest := by omega
          have ih := lastGood_prefix_fits cs rest (cap - cs * r) k hk'
          simp only [List.take_succ_cons, List.sum_cons]
          have : cs * (r + (rest.take k).sum) = cs * r + cs * (rest.take k).sum := by
            ring
          omega
      · rw [if_neg hr] at hk
        have : k = 0 := by omega
        subst this
        simp

/-- C6: when a read terminates `INCOMPLETE` because some attribute's buffer
overflowed, the driver truncates every attribute's output to the common last
good range index, so every attribute emits the same number of cells — the
cells of the common range prefix in layout order — and each attribute's
emitted bytes fit its buffer. -/
theorem overflow_prefix_consistency (attrs : List AttrCopy) (ranges : List Nat)
    (hov : attrs.any (fun a => attrOverflow a ranges) = true) :
    readStatus attrs ranges = ReadStatus.incomplete
    ∧ (∀ a ∈ attrs, cellsEmitted attrs a ranges
        = (ranges.take (commonLastGood attrs ranges)).sum)
    ∧ (∀ a ∈ attrs, ∀ b ∈ attrs,
        cellsEmitted attrs a ranges = cellsEmitted attrs b ranges)
    ∧ (∀ a ∈ attrs, a.cell_size * cellsEmitted attrs a ranges ≤ a.capacity) := by
  have hcells : ∀ a ∈ attrs, cellsEmitted attrs a ranges
      = (ranges.take (commonLastGood attrs ranges)).sum := by
    intro a ha
    rw [cellsEmitted, List.take_take]
    rw [min_eq_left (commonLastGood_le attrs ranges a ha)]
  refine ⟨by rw [readStatus, if_pos hov], hcells, ?_, ?_⟩
  · intro a ha b hb
    rw [hcells a ha, hcells b hb]
  · intro a ha
    rw [hcells a ha]
    exact lastGood_prefix_fits a.cell_size ranges a.capacity _
      (commonLastGood_le attrs ranges a ha)

theorem overflow_prefix_consistency_witness :
    (([⟨4, 8⟩, ⟨1, 100⟩] : List AttrCopy).any
        (fun a => attrOverflow a [2, 3]) = true)
    ∧ (readStatus [⟨4, 8⟩, ⟨1, 100⟩] [2, 3] = ReadStatus.incomplete
      ∧ (∀ a ∈ ([⟨4, 8⟩, ⟨1, 100⟩] : List AttrCopy),
          cellsEmitted [⟨4, 8⟩, ⟨1, 100⟩] a [2, 3]
            = (([2, 3] : List Nat).take
                (commonLastGood [⟨4, 8⟩, ⟨1, 100⟩] [2, 3])).sum)
      ∧ (∀ a ∈ ([⟨4, 8⟩, ⟨1, 100⟩] : List AttrCopy),
          ∀ b ∈ ([⟨4, 8⟩, ⟨1, 100⟩] : List AttrCopy),
            cellsEmitted [⟨4, 8⟩, ⟨1, 100⟩] a [2, 3]
              = cellsEmitted [⟨4, 8⟩, ⟨1, 100⟩] b [2, 3])
      ∧ (∀ a ∈ ([⟨4, 8⟩, ⟨1, 100⟩] : List AttrCopy),
          a.cell_size * cellsEmitted [⟨4, 8⟩, ⟨1, 100⟩] a [2, 3] ≤ a.capacity)) :=
  ⟨by decide, overflow_prefix_consistency [⟨4, 8⟩, ⟨1, 100⟩] [2, 3] (by decide)⟩

/-- C9: the name-based overflow query answers with a boolean exactly for the
attributes involved in the query, and with an error `Status` exactly for
names that are not involved. -/
theorem overflow_by_name_error_iff :
    ∀ (attributes : List String) (flags : List Bool) (name : String),
      ((∃ b, overflowByName attributes flags name = Except.ok b)
          ↔ name ∈ attributes)
      ∧ (overflowByName attributes flags name
          = Except.error QueryError.invalidAttribute ↔ name ∉ attributes)
  | [], flags, name => by
      constructor
      · simp [overflowByName]
      · simp [overflowByName]
  | a :: arest, flags, name => by
      rw [overflowByName]
      by_cases ha : a = name
      · rw [if_pos ha]
        constructor
        · constructor
          · intro _; rw [ha]; exact List.mem_cons_self _ _
          · intro _; exact ⟨flags.headD false, rfl⟩
        · constructor
          · intro h; simp at h
          · intro h
            exact absurd (ha ▸ List.mem_cons_self a arest) h
      · rw [if_neg ha]
        obtain ⟨ih1, ih2⟩ := overflow_by_name_error_iff arest flags.tail name
        constructor
        · rw [ih1, List.mem_cons]
          constructor
          · exact Or.inr
          · rintro (h | h)
            · exact absurd h.symm ha
            · exact h
        · rw [ih2, List.mem_cons]
          constructor
          · rintro h (hc | hc)
            · exact ha hc.symm
            · exact h hc
          · intro h hc
            exact h (Or.inr hc)

theorem zero_out_buffer_sizes_all_zero (buffer_sizes : List Nat) :
    ∀ s ∈ zero_out_buffer_sizes buffer_sizes, s = 0 := by
  intro s hs
  rw [zero_out_buffer_sizes] at hs
  obtain ⟨t, -, h⟩ := List.mem_map.mp hs
  exact h.symm

theorem zero_out_buffers_all_zero (buffers : List (List Nat)) :
    ∀ b ∈ zero_out_buffers buffers, ∀ x ∈ b, x = 0 := by
  intro b hb x hx
  rw [zero_out_buffers] at hb
  obtain ⟨t, -, h⟩ := List.mem_map.mp hb
  rw [← h] at hx
  obtain ⟨u, -, h2⟩ := List.mem_map.mp hx
  exact h2.symm

theorem readIntoBuffer_beyond_zero :
    ∀ (buf data : List Nat) (x : Nat),
      x ∈ (readIntoBuffer buf data).drop (usefulSize buf data) → x = 0
  | [], data, x, hx => by
      simp [readIntoBuffer, writeResult, usefulSize] at hx
  | b :: bt, [], x, hx => by
      simp only [readIntoBuffer, writeResult, usefulSize, List.map_cons,
        List.take_nil, List.drop_zero, List.length_nil, Nat.zero_min,
        List.nil_append, min_eq_left, Nat.zero_le] at hx
      rcases List.mem_cons.mp hx with hx | hx
      · exact hx
      · obtain ⟨u, -, h2⟩ := List.mem_map.mp hx
        exact h2.symm
  | b :: bt, d :: dt, x, hx => by
      have heq : (readIntoBuffer (b :: bt) (d :: dt)).drop
          (usefulSize (b :: bt) (d :: dt))
          = (readIntoBuffer bt dt).drop (usefulSize bt dt) := by
        simp only [readIntoBuffer, writeResult, usefulSize, List.map_cons,
          List.length_cons, List.take_succ_cons, List.drop_succ_cons,
          List.cons_append]
        have : min (dt.length + 1) (bt.length + 1) = min dt.length bt.length + 1 := by
          omega
        rw [this, List.drop_succ_cons]
      rw [heq] at hx
      exact readIntoBuffer_beyond_zero bt dt x hx

/-- C10: before a read copies results, every caller-supplied buffer size is
set to zero and every byte of every set buffer is zeroed; consequently after
the read every byte of an output buffer beyond the reported useful size is
zero. -/
theorem read_zeroes_buffers_and_beyond (buffer_sizes : List Nat)
    (buffers : List (List Nat)) (buf data : List Nat) :
    (∀ s ∈ zero_out_buffer_sizes buffer_sizes, s = 0)
    ∧ (∀ b ∈ zero_out_buffers buffers, ∀ x ∈ b, x = 0)
    ∧ (∀ x ∈ (readIntoBuffer buf data).drop (usefulSize buf data), x = 0) :=
  ⟨zero_out_buffer_sizes_all_zero buffer_sizes,
    zero_out_buffers_all_zero buffers,
    fun x hx => readIntoBuffer_beyond_zero buf data x hx⟩
